import Mathlib

/-!
Verification development for the `rdflangserver` repository.

The Python sources (`utils.py`, `completer.py`, `cache.py`) are shallowly
embedded below: Python strings become `List Char`, Python `dict`s become
insertion-ordered association lists, machine-level side effects (filesystem,
network, the rdflib library) become explicit environment records of functions,
and fallible operations return `Except`/`Option`.
-/

/-! ## Embedding of `utils.py` -/

/-- Character class of the regex `NOT_TERM_CHAR = re.compile(r'[^:A-Za-z0-9-_]|$')`,
i.e. the characters that are NOT matched by the negated class: `:`, ASCII
letters, digits, `-`, `_`. -/
def isTermChar (c : Char) : Bool :=
  c = ':' || ('A' ≤ c && c ≤ 'Z') || ('a' ≤ c && c ≤ 'z') ||
  ('0' ≤ c && c ≤ '9') || c = '-' || c = '_'

/-- Index of the first character of `s` that is not a term character, or
`s.length` when every character is one.  This is the span start of the first
match of `NOT_TERM_CHAR` in `s` (the `|$` alternative matches at the end). -/
def findNonTerm : List Char → Nat
  | [] => 0
  | c :: cs => if isTermChar c then findNonTerm cs + 1 else 0

/-- `NOT_TERM_CHAR.search(s)`: because of the `|$` alternative the search
always succeeds; the interesting datum is the match start `m.span()[0]`.
The `Option` mirrors the `re.Match | None` type of `re.search`. -/
def searchNonTerm (s : List Char) : Option Nat :=
  some (findNonTerm s)

/-- Python `line[i:]` for a possibly negative `i` (CPython slice semantics:
a negative start is offset by the length and then clamped at 0). -/
def pySuffix (l : List Char) (i : Int) : List Char :=
  if 0 ≤ i then l.drop i.toNat
  else l.drop ((l.length : Int) + i).toNat

/-- Python `line[i::-1]` for a possibly negative `i` (CPython slice semantics
with step `-1`: the start is offset by the length if negative, clamped to
`len - 1` from above; a start below `-len` yields the empty slice). -/
def pyRevFrom (l : List Char) (i : Int) : List Char :=
  let n : Int := l.length
  let start : Int := if i < 0 then i + n else i
  if start < 0 then []
  else if n ≤ start then l.reverse
  else (l.take (start.toNat + 1)).reverse

/-- Python `line[a:b]` (step 1) for possibly negative bounds. -/
def pySlice (l : List Char) (a b : Int) : List Char :=
  let n : Int := l.length
  let s : Nat := if a < 0 then (a + n).toNat else min a.toNat l.length
  let e : Nat := if b < 0 then (b + n).toNat else min b.toNat l.length
  (l.take e).drop s

/-- Embedding of `utils.get_term_at(line, i)`:

```
m = NOT_TERM_CHAR.search(line[i:])
if not m: return None
front = m.span()[0]
m = NOT_TERM_CHAR.search(line[i::-1])
if not m: return None
back = m.span()[0]
return line[i - back + 1 : i + front]
```

The index is `Int` because the caller `RdfCompleter.get_completions` passes
`col - 1`, which in Python is `-1` when `col = 0`. -/
def get_term_at (line : List Char) (i : Int) : Option (List Char) :=
  match searchNonTerm (pySuffix line i) with
  | none => none
  | some front =>
    match searchNonTerm (pyRevFrom line i) with
    | none => none
    | some back => some (pySlice line (i - back + 1) (i + front))

/-! ## Embedding of `completer.py`: prefix-declaration scanning

`MATCH_NS_DECL = re.compile(`
`  r'(?:@prefix\s+|xmlns:?|vocab|prefix\s+|PREFIX\s+|")(?:@vocab|(\w*))"?[:=]\s*[<"'"](.+?)[>"']')`

The matcher below implements exactly this pattern with Python's
leftmost-match, alternation-preference and lazy/greedy semantics.
`\s` and `\w` are modelled by their ASCII parts (the sources only ever
contain ASCII declarations). -/

/-- Python regex `\s` (ASCII part). -/
def isSpaceChar (c : Char) : Bool :=
  c = ' ' || c = '\t' || c = '\n' || c = '\r' || c = '\x0b' || c = '\x0c'

/-- Python regex `\w` (ASCII part). -/
def isWordChar (c : Char) : Bool :=
  ('A' ≤ c && c ≤ 'Z') || ('a' ≤ c && c ≤ 'z') || ('0' ≤ c && c ≤ '9') || c = '_'

/-- First alternative of a list of continuations that succeeds (regex
backtracking order). -/
def firstSome : List α → (α → Option β) → Option β
  | [], _ => none
  | a :: as, f =>
    match f a with
    | some b => some b
    | none => firstSome as f

/-- Match a literal, returning the remainder. -/
def matchLit : List Char → List Char → Option (List Char)
  | [], s => some s
  | _ :: _, [] => none
  | c :: cs, d :: ds => if c = d then matchLit cs ds else none

/-- `\s+`, maximal munch (safe here: no later pattern element can match a
whitespace character, so the regex never has to give spaces back). -/
def matchSpaces1 (s : List Char) : Option (List Char) :=
  match s with
  | c :: cs => if isSpaceChar c then some (cs.dropWhile isSpaceChar) else none
  | [] => none

def optList : Option α → List α
  | some a => [a]
  | none => []

/-- `xmlns:?` — the greedy optional colon yields two continuations. -/
def afterXmlns (s : List Char) : List (List Char) :=
  match matchLit "xmlns".data s with
  | none => []
  | some r =>
    match r with
    | ':' :: r2 => [r2, ':' :: r2]
    | _ => [r]

/-- The leading group `(?:@prefix\s+|xmlns:?|vocab|prefix\s+|PREFIX\s+|")`:
all continuations in preference order. -/
def matchA (s : List Char) : List (List Char) :=
  optList ((matchLit "@prefix".data s).bind matchSpaces1) ++
  afterXmlns s ++
  optList (matchLit "vocab".data s) ++
  optList ((matchLit "prefix".data s).bind matchSpaces1) ++
  optList ((matchLit "PREFIX".data s).bind matchSpaces1) ++
  optList (matchLit "\"".data s)

/-- `(?:@vocab|(\w*))`: either the literal (leaving capture group 1
unparticipating, reported as `none`) or the greedy `\w*` capture (maximal
munch is exact: the following `"?[:=]` can never match a word character). -/
def matchB (s : List Char) : List (Option (List Char) × List Char) :=
  (match matchLit "@vocab".data s with
   | some r => [(none, r)]
   | none => []) ++
  [(some (s.takeWhile isWordChar), s.dropWhile isWordChar)]

/-- `"?` — greedy optional quote. -/
def matchQ (s : List Char) : List (List Char) :=
  match s with
  | '"' :: r => [r, '"' :: r]
  | _ => [s]

/-- Scanner for the lazy `(.+?)` up to the first `[>"']` terminator
(`.` does not match a newline). -/
def nsScan : List Char → List Char → Option (List Char × List Char)
  | _, [] => none
  | acc, c :: cs =>
    if c = '>' || c = '"' || c = '\x27' then some (acc.reverse, cs)
    else if c = '\n' then none
    else nsScan (c :: acc) cs

/-- `(.+?)[>"']`: the first character is always consumed by `.+?`, then the
earliest terminator ends the lazy group. -/
def matchNS : List Char → Option (List Char × List Char)
  | [] => none
  | c :: cs => if c = '\n' then none else nsScan [c] cs

/-- One attempt of the full `MATCH_NS_DECL` pattern anchored at the head of
`s`; on success returns (group 1, group 2, rest after the match), with a
non-participating group 1 reported as the empty string as `re.findall`
does. -/
def tryMatchFrom (s : List Char) : Option (List Char × List Char × List Char) :=
  firstSome (matchA s) fun r1 =>
    firstSome (matchB r1) fun g1r2 =>
      firstSome (matchQ g1r2.2) fun r3 =>
        match r3 with
        | c :: r4 =>
          if c = ':' || c = '=' then
            match r4.dropWhile isSpaceChar with
            | d :: r6 =>
              if d = '<' || d = '"' || d = '\x27' then
                (matchNS r6).map fun p => (g1r2.1.getD [], p.1, p.2)
              else none
            | [] => none
          else none
        | [] => none

/-- `re.findall` scan: try the pattern at each position left to right,
continuing after the end of each (non-overlapping) match.  Every match
consumes at least one character, so `line.length` fuel suffices. -/
def findallAux : Nat → List Char → List (List Char × List Char)
  | 0, _ => []
  | fuel + 1, s =>
    match tryMatchFrom s with
    | some (g1, g2, rest) => (g1, g2) :: findallAux fuel rest
    | none =>
      match s with
      | [] => []
      | _ :: cs => findallAux fuel cs

/-- Embedding of `get_pfxns(line) = MATCH_NS_DECL.findall(line)`. -/
def get_pfxns (line : List Char) : List (List Char × List Char) :=
  findallAux line.length line

def MAX_LINE_SCAN : Nat := 80

/-- Python `dict` insertion: an existing key keeps its position and gets the
new value, a fresh key is appended. -/
def dictInsert [DecidableEq κ] (m : List (κ × α)) (k : κ) (v : α) :
    List (κ × α) :=
  if m.any (fun p => p.1 = k) then
    m.map (fun p => if p.1 = k then (k, v) else p)
  else m ++ [(k, v)]

/-- Python `dict` lookup `m.get(k)`. -/
def dictLookup [DecidableEq κ] (m : List (κ × α)) (k : κ) : Option α :=
  match m.find? (fun p => p.1 = k) with
  | some p => some p.2
  | none => none

/-- The (prefix, namespace) pairs contributed, in order, by the scanned
window: `for line in buffer[:MAX_LINE_SCAN] for pfx, ns in get_pfxns(line)`. -/
def get_pfxns_pairs (buffer : List (List Char)) : List (List Char × List Char) :=
  (buffer.take MAX_LINE_SCAN).flatMap get_pfxns

/-- Embedding of `get_pfxns_map(buffer)`: the dict comprehension
`{pfx: ns for line in buffer[:MAX_LINE_SCAN] for pfx, ns in get_pfxns(line)}`. -/
def get_pfxns_map (buffer : List (List Char)) : List (List Char × List Char) :=
  (get_pfxns_pairs buffer).foldl (fun m p => dictInsert m p.1 p.2) []

/-! ## Embedding of `completer.py`: `RdfCompleter`

External collaborators (rdflib's graph loading and `split_uri`, the
`PrefixCache`, and the `LANG_KEYWORDS` table from the `keywords` module,
which is not part of the sources) are supplied as an environment record of
functions; `self._terms_by_ns` is threaded explicitly as `Memo`. -/

/-- Python `s.partition(c)`: split at the first occurrence of `c`, or
`(s, '', '')` when absent. -/
def pyPartition (s : List Char) (c : Char) : List Char × List Char × List Char :=
  match s with
  | [] => ([], [], [])
  | a :: as =>
    if a = c then ([], [c], as)
    else
      let r := pyPartition as c
      (a :: r.1, r.2.1, r.2.2)

/-- Python `line.split(':')[0]`. -/
def pySplitHeadColon (line : List Char) : List Char :=
  line.takeWhile (fun c => c ≠ ':')

/-- Python `s.strip()` (ASCII whitespace). -/
def pyStrip (s : List Char) : List Char :=
  ((s.dropWhile isSpaceChar).reverse.dropWhile isSpaceChar).reverse

/-- The term descriptor the completer extracts from a vocabulary graph
resource: `res.value(RDF.type)` already rendered through `.qname()` (when
the type is present), and `res.value(RDFS.comment)`. -/
structure TermDesc where
  typeq : Option (List Char)
  comment : Option (List Char)
deriving DecidableEq

/-- The `Completion` NamedTuple with its `None` defaults. -/
structure Completion where
  label : List Char
  detail : Option (List Char) := none
  documentation : Option (List Char) := none
deriving DecidableEq

/-- A subject returned by `graph.subjects(RDF.type | RDFS.isDefinedBy, None)`
together with the metadata the completer reads off it. -/
structure Subject where
  uri : List Char
  typeq : Option (List Char)
  comment : Option (List Char)
deriving DecidableEq

abbrev CGraph := List Subject

/-- External collaborators of `RdfCompleter`. -/
structure CompleterEnv where
  /-- `self.graphcache.load(ns)`; an unreachable or unparsable vocabulary
  source raises, modelled as `Except.error`. -/
  load : List Char → Except Unit CGraph
  /-- rdflib's `split_uri`; `none` models the raised exception. -/
  split_uri : List Char → Option (List Char × List Char)
  /-- `LANG_KEYWORDS.get(lang, [])` (the `keywords` module is not among the
  sources; the per-language keyword table is opaque here). -/
  keywords : Option (List Char) → List (List Char)
  /-- `self.prefixes.lookup(pfx)` (PrefixCache). -/
  pc_lookup : List Char → Option (List Char)
  /-- `self.prefixes.namespaces()` (PrefixCache), in declaration order. -/
  pc_namespaces : List (List Char × List Char)

/-- `self._terms_by_ns`. -/
abbrev Memo := List (List Char × List (List Char × TermDesc))

inductive CErr where
  | assertFailed
  | loadFailed
deriving DecidableEq

/-- Embedding of `RdfCompleter._collect_vocab_terms` (the iteration order of
the Python `set` of subjects is modelled by the graph's list order; the
resulting dict is order-insensitive up to key positions). -/
def collect_vocab_terms (env : CompleterEnv) (g : CGraph) (ns : List Char) :
    List (List Char × TermDesc) :=
  g.foldl (fun terms s =>
    match env.split_uri s.uri with
    | none => terms
    | some ul =>
      if ul.1 = ns ∧ ul.2 ≠ [] then dictInsert terms ul.2 ⟨s.typeq, s.comment⟩
      else terms) []

/-- Embedding of `RdfCompleter.get_vocab_terms`; note `if terms is None and ns:`
treats both `None` and the empty namespace string as falsy. -/
def get_vocab_terms (env : CompleterEnv) (memo : Memo) (ns : Option (List Char)) :
    Except CErr (Option (List (List Char × TermDesc)) × Memo) :=
  let terms := match ns with
    | none => none
    | some n => dictLookup memo n
  match ns with
  | some n =>
    if terms = none ∧ n ≠ [] then
      match env.load n with
      | .error _ => .error .loadFailed
      | .ok g =>
        let memo2 := dictInsert memo n (collect_vocab_terms env g n)
        .ok (dictLookup memo2 n, memo2)
    else .ok (terms, memo)
  | none => .ok (terms, memo)

inductive PfxFmt where
  | sparql
  | xmlns
deriving DecidableEq

/-- The completion-mode selector of `get_completions`:

```
prefixdecl = line.split(':')[0].strip()
pfx_fmt = ('%s: <%s>' if prefixdecl.startswith(('PREFIX', 'prefix', '@prefix'))
           else '%s="%s"' if prefixdecl == 'xmlns' else None)
``` -/
def pfx_fmt_of (line : List Char) : Option PfxFmt :=
  let prefixdecl := pyStrip (pySplitHeadColon line)
  if "PREFIX".data.isPrefixOf prefixdecl ∨ "prefix".data.isPrefixOf prefixdecl ∨
      "@prefix".data.isPrefixOf prefixdecl then some PfxFmt.sparql
  else if prefixdecl = "xmlns".data then some PfxFmt.xmlns
  else none

/-- `pfx_fmt % (pfx, ns)` for the two concrete formats. -/
def fmt_decl (fmt : PfxFmt) (p ns : List Char) : List Char :=
  match fmt with
  | .sparql => p ++ ": <".data ++ ns ++ ">".data
  | .xmlns => p ++ "=\"".data ++ ns ++ "\"".data

/-- Embedding of `RdfCompleter._get_pfx_declarations`. -/
def pfx_declarations (env : CompleterEnv) (fmt : PfxFmt) (base : List Char) :
    List (List Char) :=
  (env.pc_namespaces.filter (fun p => base.isPrefixOf p.1)).map
    (fun p => fmt_decl fmt p.1 p.2)

/-- Python string `<` (lexicographic by code point), as `≤`. -/
def lexLe : List Char → List Char → Bool
  | [], _ => true
  | _ :: _, [] => false
  | a :: as, b :: bs => if a = b then lexLe as bs else decide (a < b)

/-- The comparator realised by Python `sorted` on `Completion` NamedTuples:
tuple comparison starts at the label, and the labels (keys of one dict) are
pairwise distinct in every call, so the label comparison always settles the
order before the optional fields are reached. -/
def compLe (a b : Completion) : Bool := lexLe a.label b.label

/-- Stable ascending sort (structurally recursive insertion sort, the
observable behaviour of Python `sorted`). -/
def pyInsert (le : α → α → Bool) (a : α) : List α → List α
  | [] => [a]
  | b :: bs => if le a b then a :: b :: bs else b :: pyInsert le a bs

def pySort (le : α → α → Bool) : List α → List α
  | [] => []
  | a :: as => pyInsert le a (pySort le as)

def pySortedCompletions (l : List Completion) : List Completion :=
  pySort compLe l

/-- Embedding of `RdfCompleter.get_completions(buffer, line, col, lang)`.
The `assert term is not None` is the `.error .assertFailed` branch; an
exception escaping `self.graphcache.load` is `.error .loadFailed`. -/
def get_completions (env : CompleterEnv) (memo : Memo) (buffer : List (List Char))
    (line : List Char) (col : Nat) (lang : Option (List Char)) :
    Except CErr (List Completion × Memo) :=
  match get_term_at line ((col : Int) - 1) with
  | none => .error .assertFailed
  | some term =>
    let pt := pyPartition term ':'
    let trail := pt.2.2
    match pfx_fmt_of line with
    | some fmt =>
      if term.getLast? = some ':' then
        let ns := env.pc_lookup term.dropLast
        let results : List (List Char) := match ns with
          | some n => if n ≠ [] then [" <".data ++ n ++ ">".data] else []
          | none => []
        .ok (results.map (fun v => { label := v }), memo)
      else
        .ok ((pfx_declarations env fmt trail).map (fun v => { label := v }), memo)
    | none =>
      let pfxns := get_pfxns_map buffer
      let ns := dictLookup pfxns pt.1
      match get_vocab_terms env memo ns with
      | .error e => .error e
      | .ok tm =>
        let terms := tm.1.getD []
        if term.contains ':' then
          .ok (pySortedCompletions
            (terms.filterMap (fun kv =>
              if trail.isPrefixOf kv.1 then
                some { label := kv.1, detail := kv.2.typeq,
                       documentation := kv.2.comment }
              else none)), tm.2)
        else
          let kws := env.keywords lang
          let curies := (pySort lexLe (pfxns.map (fun p => p.1))).map
              (fun p => p ++ [':'])
            ++ terms.map (fun kv => kv.1) ++ kws
          .ok ((curies.filter (fun c => trail.isPrefixOf c)).map
            (fun v => { label := v }), tm.2)

/-- Environment for evaluating the completion engine against an unreachable
vocabulary source: every `GraphCache.load` raises, the prefix registry is
empty. -/
def envUnreachable : CompleterEnv where
  load := fun _ => Except.error ()
  split_uri := fun _ => none
  keywords := fun _ => []
  pc_lookup := fun _ => none
  pc_namespaces := []

/-- Environment and memo for the claim C8 witness: the vocabulary index for
`http://ex#` is already memoized with a single term `Bar`. -/
def envW : CompleterEnv where
  load := fun _ => Except.error ()
  split_uri := fun _ => none
  keywords := fun _ => []
  pc_lookup := fun _ => none
  pc_namespaces := []

def memoW : Memo :=
  [("http://ex#".data,
    [("Bar".data, ⟨some "rdfs:Class".data, some "A bar".data⟩)])]

/-! ## Embedding of `completer.py`: `RdfCompleter.find_term_definition` -/

/-- Regex `\b` immediately after a literal `d` matched at the start of `l`:
the word-ness of the last character of `d` and of the following character of
`l` (end-of-string counts as non-word; for an empty literal the position is
the start of the string, preceded by the non-word virtual boundary). -/
def wordBoundaryAfter (d l : List Char) : Bool :=
  match d.getLast? with
  | none =>
    match l.head? with
    | some c => isWordChar c
    | none => false
  | some lastc =>
    match (l.drop d.length).head? with
    | some nextc => isWordChar lastc != isWordChar nextc
    | none => isWordChar lastc

/-- `re.search(fr"^{re.escape(defterm)}\b", l)`: the line starts with the
literal `defterm` followed by a word boundary. -/
def matchesLineStart (l d : List Char) : Bool :=
  d.isPrefixOf l && wordBoundaryAfter d l

/-- `if def_ns not in prefixes: prefixes[def_ns] = def_pfx` (note the map is
keyed by namespace, first seen declaration wins). -/
def first_seen_insert (m : List (List Char × List Char)) (ns p : List Char) :
    List (List Char × List Char) :=
  if (dictLookup m ns).isSome then m else m ++ [(ns, p)]

/-- Process the declarations of one line into the namespace→prefix map. -/
def scan_decls (m : List (List Char × List Char)) (l : List Char) :
    List (List Char × List Char) :=
  (get_pfxns l).foldl (fun m pr => first_seen_insert m pr.2 pr.1) m

/-- `f"{dpfx}:{lname}" if dpfx is not None else f"<{ns}{lname}>"`. -/
def defterm_of (pm : List (List Char × List Char)) (ns lname : List Char) :
    List Char :=
  match dictLookup pm ns with
  | some dpfx => dpfx ++ ':' :: lname
  | none => '<' :: (ns ++ lname) ++ ['>']

/-- The `for at_line, l in enumerate(lines)` loop of `find_term_definition`,
with its running namespace→prefix map. -/
def ftdLoop (ns lname : List Char) :
    List (List Char) → Nat → List (List Char × List Char) → Nat × Nat
  | [], _, _ => (0, 0)
  | l :: rest, at_line, pm =>
    let pm2 := if at_line < MAX_LINE_SCAN then scan_decls pm l else pm
    if matchesLineStart l (defterm_of pm2 ns lname) then (at_line, 0)
    else ftdLoop ns lname rest (at_line + 1) pm2

/-- Embedding of `RdfCompleter.find_term_definition(lines, ns, lname)`. -/
def find_term_definition (lines : List (List Char)) (ns lname : List Char) :
    Nat × Nat :=
  ftdLoop ns lname lines 0 []

/-- The namespace→prefix map accumulated from the declarations of the first
`min k MAX_LINE_SCAN` lines (first declaration of a namespace wins). -/
def pm_upto (lines : List (List Char)) (k : Nat) : List (List Char × List Char) :=
  ((lines.take (min k MAX_LINE_SCAN)).flatMap get_pfxns).foldl
    (fun m pr => first_seen_insert m pr.2 pr.1) []

/-- Line `i` of the document begins, on a word boundary, with the expected
rendering of the term at that point of the scan. -/
def matchesAt (lines : List (List Char)) (ns lname : List Char) (i : Nat) : Bool :=
  match lines[i]? with
  | none => false
  | some l => matchesLineStart l (defterm_of (pm_upto lines (i + 1)) ns lname)

/-! ## Embedding of `cache.py`: `GraphCache.get_fs_path`

`get_fs_path(url) = cachedir / (quote(url, safe="") + '.ttl')`.
`urllib.parse.quote` with `safe=""` UTF-8-encodes the string and
percent-encodes (uppercase hex) every byte outside
`A-Z a-z 0-9 _ . - ~`. -/

/-- The bytes `urllib.parse.quote` never encodes (`ALWAYS_SAFE`; `safe=""`
adds nothing). -/
def isSafeByte (b : Nat) : Bool :=
  (65 ≤ b && b ≤ 90) || (97 ≤ b && b ≤ 122) || (48 ≤ b && b ≤ 57) ||
  b = 95 || b = 46 || b = 45 || b = 126

/-- Uppercase hexadecimal digit. -/
def hexDigitChar (n : Nat) : Char :=
  if n < 10 then Char.ofNat (48 + n) else Char.ofNat (55 + n)

/-- One byte of percent-encoding output. -/
def encodeByte (b : Nat) : List Char :=
  if isSafeByte b then [Char.ofNat b]
  else ['%', hexDigitChar (b / 16), hexDigitChar (b % 16)]

/-- Standard UTF-8 encoding of a code point (what Python's `str.encode`
produces before quoting). -/
def charUtf8 (n : Nat) : List Nat :=
  if n < 128 then [n]
  else if n < 2048 then [192 + n / 64, 128 + n % 64]
  else if n < 65536 then [224 + n / 4096, 128 + n / 64 % 64, 128 + n % 64]
  else [240 + n / 262144, 128 + n / 4096 % 64, 128 + n / 64 % 64, 128 + n % 64]

def strBytes (s : List Char) : List Nat :=
  s.flatMap (fun c => charUtf8 c.toNat)

/-- `urllib.parse.quote(s, safe="")`. -/
def pyQuote (s : List Char) : List Char :=
  (strBytes s).flatMap encodeByte

/-- Embedding of `GraphCache.get_fs_path`:
`self.cachedir / (quote(url, safe="") + '.ttl')` (the cache directory is a
normalized absolute path, so the pathlib join is `/`-concatenation). -/
def GraphCache.get_fs_path (cachedir url : String) : String :=
  ⟨cachedir.data ++ '/' :: (pyQuote url.data ++ ".ttl".data)⟩

/-- Inverse of `hexDigitChar`. -/
def hexVal (c : Char) : Nat :=
  if 65 ≤ c.toNat then c.toNat - 55 else c.toNat - 48

/-- Percent-decoding (left inverse of the byte encoder on encoder output;
on malformed input the defaults are irrelevant). -/
def decodeBytes : List Char → List Nat
  | [] => []
  | c :: rest =>
    if c = '%' then
      (hexVal (rest.headD 'x') * 16 + hexVal ((rest.drop 1).headD 'x')) ::
        decodeBytes (rest.drop 2)
    else c.toNat :: decodeBytes rest
termination_by l => l.length
decreasing_by
  all_goals simp only [List.length_cons, List.length_drop]
  all_goals omega

def utf8Len (b : Nat) : Nat :=
  if b < 128 then 1 else if b < 224 then 2 else if b < 240 then 3 else 4

def utf8Combine (b : Nat) (cont : List Nat) : Nat :=
  match cont with
  | [] => b
  | [b1] => (b - 192) * 64 + (b1 - 128)
  | [b1, b2] => (b - 224) * 4096 + (b1 - 128) * 64 + (b2 - 128)
  | b1 :: b2 :: b3 :: _ =>
    (b - 240) * 262144 + (b1 - 128) * 4096 + (b2 - 128) * 64 + (b3 - 128)

/-- UTF-8 decoding (left inverse of `charUtf8` chains). -/
def decodeUtf8 : List Nat → List Nat
  | [] => []
  | b :: rest =>
    utf8Combine b (rest.take (utf8Len b - 1)) :: decodeUtf8 (rest.drop (utf8Len b - 1))
termination_by l => l.length
decreasing_by
  simp only [List.length_cons]
  have := List.length_drop (utf8Len b - 1) rest
  omega

/-! ## Embedding of `cache.py`: `GraphCache.load`

The filesystem, network and rdflib parsing are an environment of functions
(`GCFS`); the mutable fields of `GraphCache` (plus the on-disk cache
directory contents) are `GCState`.  `load` returns the parse result (an
exception propagates as `Except.error`), an observable "the source document
was parsed during this call" signal, and the new state. -/

abbrev Triple := String × String × String

structure GCFS where
  /-- `os.path.isfile(url)`. -/
  isfile : String → Bool
  /-- `os.stat(url).st_mtime` (an integer stands in for the float; what
  matters is the order and Python's falsiness of `0`). -/
  mtime : String → Int
  /-- `create_input_source(url).getPublicId()`. -/
  pubId : String → String
  /-- `ConjunctiveGraph().parse(src, format=guess_format(src))` for a local
  source; `Except.error` models a raised parse error. -/
  parseFile : String → Except Unit (List Triple)
  /-- `self.graph.parse(src, format='rdfa' if url.endswith('html') else None)`:
  the network fetch-and-parse; `Except.error` models an unreachable or
  unparsable source. -/
  fetch : String → Except Unit (List Triple)

structure GCState where
  /-- `self.cachedir` (a normalized absolute path). -/
  cachedir : String
  /-- `self.mtime_map`. -/
  mtime_map : List (String × Int)
  /-- The aggregate `ConjunctiveGraph` as a map from context identifier to
  that context's triples. -/
  contexts : String → List Triple
  /-- The on-disk cache: path ↦ parsed content of an existing, non-empty
  cache file. -/
  cache : String → Option (List Triple)

/-- `VOCAB_SOURCE_MAP`. -/
def vocab_source_map : List (String × String) :=
  [("http://schema.org/", "http://schema.org/docs/schema_org_rdfa.html")]

/-- The re-parse test of `GraphCache.load`:
`if not last_vocab_mtime or last_vocab_mtime < vocab_mtime:` — note that a
recorded mtime of `0` is falsy in Python exactly like the absent `None`. -/
def reparse_cond (last : Option Int) (cur : Int) : Bool :=
  (match last with
   | none => true
   | some t => decide (t = 0)) || decide (last.getD 0 < cur)

/-- The fall-through tail of `GraphCache.load` (shared by the non-file branch
and the unchanged-mtime local-file branch): context hit, else cached
serialization, else fetch-and-serialize. -/
def GraphCache.loadTail (fs : GCFS) (st : GCState) (url src context_id : String) :
    Except Unit (List Triple) × Bool × GCState :=
  if st.contexts context_id ≠ [] then
    (Except.ok (st.contexts context_id), false, st)
  else
    let cache_path := GraphCache.get_fs_path st.cachedir url
    match st.cache cache_path with
    | some ts =>
      (Except.ok ts, false,
       { st with contexts := fun c =>
          if c = context_id then st.contexts c ++ ts else st.contexts c })
    | none =>
      match fs.fetch src with
      | Except.error e => (Except.error e, true, st)
      | Except.ok ts =>
        (Except.ok ts, true,
         { st with
            contexts := fun c =>
              if c = context_id then st.contexts c ++ ts else st.contexts c,
            cache := fun p => if p = cache_path then some ts else st.cache p })

/-- Embedding of `GraphCache.load(url)`. -/
def GraphCache.load (fs : GCFS) (st : GCState) (url : String) :
    Except Unit (List Triple) × Bool × GCState :=
  let src := (dictLookup vocab_source_map url).getD url
  if fs.isfile url then
    let context_id := fs.pubId url
    let last := dictLookup st.mtime_map url
    let cur := fs.mtime url
    if reparse_cond last cur then
      -- `self.mtime_map[url] = vocab_mtime` happens before the parse
      let st1 := { st with mtime_map := dictInsert st.mtime_map url cur }
      match fs.parseFile src with
      | Except.error e => (Except.error e, true, st1)
      | Except.ok ts =>
        -- fresh CG parse, `remove_context`, re-insert under `context_id`
        (Except.ok ts, true,
         { st1 with contexts := fun c => if c = context_id then ts else st.contexts c })
    else GraphCache.loadTail fs st url src context_id
  else GraphCache.loadTail fs st url src url

def fsMtimeZero : GCFS where
  isfile := fun u => u = "v.ttl"
  mtime := fun _ => 0
  pubId := fun u => u
  parseFile := fun _ => Except.ok [("s", "p", "o")]
  fetch := fun _ => Except.error ()

def stMtimeZero : GCState where
  cachedir := "/c"
  mtime_map := [("v.ttl", 0)]
  contexts := fun c => if c = "v.ttl" then [("s", "p", "o")] else []
  cache := fun _ => none

/-- Witness data for claims C4 and C5: a file whose mtime advanced from the
recorded 3 to 5. -/
def fsAdvanced : GCFS where
  isfile := fun u => u = "f"
  mtime := fun _ => 5
  pubId := fun u => u
  parseFile := fun _ => Except.ok [("s", "p", "o")]
  fetch := fun _ => Except.error ()

def stAdvanced : GCState where
  cachedir := "/c"
  mtime_map := [("f", 3)]
  contexts := fun c => if c = "f" then [("old", "old", "old")] else []
  cache := fun _ => none

/-! ## Embedding of `cache.py`: `PrefixCache`

The prefix graph's namespace bindings and the persisted prefix file are the
state; the network fetch of the per-prefix `prefix.cc` document is an
environment function whose `none` models the network/parse failure absorbed
by the bare `except:` in `_fetch_ns`. -/

def XMLNS : String := "http://www.w3.org/XML/1998/namespace"

def PREFIX_URI_TEMPLATE (pfx : String) : String :=
  "http://prefix.cc/" ++ pfx ++ ".file.ttl"

structure PfxEnv where
  /-- Parsing `http://prefix.cc/{pfx}.file.ttl` into the prefix graph:
  `none` is a network or parse failure, `some decls` the namespace bindings
  the fetched turtle declares. -/
  fetchPfx : String → Option (List (String × String))

structure PfxState where
  /-- The namespace bindings of `self._pfxgraph.store`. -/
  bindings : List (String × String)
  /-- The persisted prefix table file (as bindings). -/
  fileContents : List (String × String)

/-- Embedding of `PrefixCache._fetch_ns`: try to parse the lookup document
(failure silently ignored by the bare `except:`), rewrite the whole prefix
file skipping the reserved XML namespace, and retry the table lookup.

The file-rewrite loop `for pfx, ns in self._pfxgraph.namespaces():` rebinds
the method parameter `pfx` (on every iteration, including those skipped by
`continue`), so the final `return self._pfxgraph.store.namespace(pfx)` looks
up the prefix of the LAST binding iterated whenever the (post-merge) table
is non-empty, and the requested prefix only when the table is empty.  (A
successful fetch still appears to work because the freshly fetched prefix is
appended last.)  The `if self._prefix_file:` guard is always taken: the
constructor passes a `Path`, which is truthy. -/
def PfxState.fetch_ns (env : PfxEnv) (st : PfxState) (pfx : String) :
    Option String × PfxState :=
  let st1 := match env.fetchPfx (PREFIX_URI_TEMPLATE pfx) with
    | some decls =>
      { st with bindings :=
          decls.foldl (fun (m : List (String × String)) (p : String × String) =>
            dictInsert m p.1 p.2) st.bindings }
    | none => st
  let st2 := { st1 with fileContents := st1.bindings.filter (fun p => p.2 ≠ XMLNS) }
  let pfx2 := match st1.bindings.getLast? with
    | some last => last.1
    | none => pfx
  (dictLookup st2.bindings pfx2, st2)

/-- Embedding of `PrefixCache.lookup`:
`ns = self._pfxgraph.store.namespace(pfx); return ns or self._fetch_ns(pfx)`.
The middle component records whether a fetch was performed.  Note Python's
`or`: a binding to the empty string is falsy and falls through to the
fetch. -/
def PfxState.lookup (env : PfxEnv) (st : PfxState) (pfx : String) :
    Option String × Bool × PfxState :=
  match dictLookup st.bindings pfx with
  | some ns =>
    if ns ≠ "" then (some ns, false, st)
    else
      let r := PfxState.fetch_ns env st pfx
      (r.1, true, r.2)
  | none =>
    let r := PfxState.fetch_ns env st pfx
    (r.1, true, r.2)

def envNoNet : PfxEnv where
  fetchPfx := fun _ => none

def stEmptyBinding : PfxState where
  bindings := [("p", "")]
  fileContents := []

def stRdfBinding : PfxState where
  bindings := [("rdf", "http://www.w3.org/1999/02/22-rdf-syntax-ns#")]
  fileContents := []

/-! ## Theorems -/

example : get_term_at "some rdf:term here".data 7 = some "rdf:term".data := by decide

example : get_term_at "some rdf:term here".data 12 = some "rdf:term".data := by decide

example : get_term_at "some rdf:term here".data 17 = some "here".data := by decide

example : get_term_at "<> a bibo:Article".data 16 = some "bibo:Article".data := by decide

example : get_term_at "foo:Bar a ".data 9 = some [] := by decide

theorem findNonTerm_le (m : List Char) : findNonTerm m ≤ m.length := by
  induction m with
  | nil => simp [findNonTerm]
  | cons c cs ih =>
    simp only [findNonTerm, List.length_cons]
    split <;> omega

theorem findNonTerm_all (m : List Char) (k : Nat) (hk : k < findNonTerm m)
    (hl : k < m.length) : isTermChar m[k] = true := by
  induction m generalizing k with
  | nil => simp at hl
  | cons c cs ih =>
    simp only [findNonTerm] at hk
    by_cases hc : isTermChar c
    · rw [if_pos hc] at hk
      cases k with
      | zero => simpa using hc
      | succ k' =>
        simp only [List.getElem_cons_succ]
        exact ih k' (by omega) (by simpa using hl)
    · rw [if_neg hc] at hk; omega

theorem findNonTerm_end (m : List Char) (j : Nat) (hj : j = findNonTerm m)
    (h : j < m.length) : isTermChar m[j] = false := by
  induction m generalizing j with
  | nil => simp at h
  | cons c cs ih =>
    simp only [findNonTerm] at hj
    by_cases hc : isTermChar c
    · rw [if_pos hc] at hj
      subst hj
      simp only [List.getElem_cons_succ]
      exact ih _ rfl (by simpa using h)
    · rw [if_neg hc] at hj
      subst hj
      simpa using hc

theorem findNonTerm_eq (m : List Char) (c : Nat) (hc : c ≤ m.length)
    (hall : ∀ k (hk : k < m.length), k < c → isTermChar m[k] = true)
    (hend : c = m.length ∨ ∃ h : c < m.length, isTermChar (m.get ⟨c, h⟩) = false) :
    findNonTerm m = c := by
  induction m generalizing c with
  | nil =>
    simp only [List.length_nil, Nat.le_zero] at hc
    simp [findNonTerm, hc]
  | cons a as ih =>
    cases c with
    | zero =>
      rcases hend with h | ⟨h, hf⟩
      · simp at h
      · simp only [findNonTerm]
        rw [if_neg]
        simp only [List.get_eq_getElem, List.getElem_cons_zero] at hf
        simp [hf]
    | succ c' =>
      have ha : isTermChar a = true := by
        have := hall 0 (by simp) (by omega)
        simpa using this
      simp only [findNonTerm, if_pos ha]
      congr 1
      apply ih
      · simpa using hc
      · intro k hk hkc
        have := hall (k+1) (by simpa using hk) (by omega)
        simpa using this
      · rcases hend with h | ⟨h, hf⟩
        · left; simp at h; omega
        · right
          refine ⟨by simp at h; omega, ?_⟩
          simp only [List.get_eq_getElem, List.getElem_cons_succ] at hf
          simpa using hf

theorem findNonTerm_pos (m : List Char) (hm : 0 < m.length)
    (h0 : isTermChar (m.get ⟨0, hm⟩) = true) : 1 ≤ findNonTerm m := by
  cases m with
  | nil => simp at hm
  | cons c cs =>
    simp only [List.get_eq_getElem, List.getElem_cons_zero] at h0
    simp [findNonTerm, h0]

theorem revtake_get (l : List Char) (i k : Nat) (h : i < l.length) (hk : k ≤ i) :
    (l.take (i+1)).reverse.get ⟨k, by rw [List.length_reverse, List.length_take]; omega⟩ =
      l.get ⟨i - k, by omega⟩ := by
  simp only [List.get_eq_getElem]
  rw [List.getElem_reverse, List.getElem_take]
  apply getElem_congr
  simp only [List.length_take]
  omega

theorem pySuffix_natCast (l : List Char) (j : Nat) : pySuffix l (j : Int) = l.drop j := by
  simp [pySuffix]

theorem pyRevFrom_natCast (l : List Char) (j : Nat) (h : j < l.length) :
    pyRevFrom l (j : Int) = (l.take (j+1)).reverse := by
  simp only [pyRevFrom]
  rw [if_neg (by omega), if_neg (by omega), if_neg (by omega)]
  simp

theorem pySlice_natCast (l : List Char) (a b : Nat) (ha : a ≤ l.length) (hb : b ≤ l.length) :
    pySlice l (a : Int) (b : Int) = (l.take b).drop a := by
  simp only [pySlice]
  rw [if_neg (by omega), if_neg (by omega)]
  simp [Int.toNat_natCast, Nat.min_eq_left ha, Nat.min_eq_left hb]

theorem token_span (l : List Char) (i : Nat) (h : i < l.length)
    (hterm : isTermChar (l.get ⟨i, h⟩) = true) :
    ∃ lo hi, lo ≤ i ∧ i < hi ∧ hi ≤ l.length ∧
      (∀ j (hj : j < l.length), lo ≤ j → j < hi → isTermChar (l.get ⟨j, hj⟩) = true) ∧
      (lo = 0 ∨ ∃ hlo : lo - 1 < l.length, isTermChar (l.get ⟨lo - 1, hlo⟩) = false) ∧
      (hi = l.length ∨ ∃ hhi : hi < l.length, isTermChar (l.get ⟨hi, hhi⟩) = false) ∧
      (∀ j : Nat, lo ≤ j → j < hi → get_term_at l (j : Int) = some ((l.take hi).drop lo)) := by
  have hdroplen : (l.drop i).length = l.length - i := by simp
  have hrevlen : ((l.take (i+1)).reverse).length = i + 1 := by simp; omega
  set front := findNonTerm (l.drop i) with hfront_def
  set back := findNonTerm ((l.take (i+1)).reverse) with hback_def
  have hfront1 : 1 ≤ front := by
    rw [hfront_def]
    apply findNonTerm_pos _ (by omega)
    simp only [List.get_eq_getElem, List.getElem_drop]
    simpa using hterm
  have hfrontle : front ≤ l.length - i := by
    have := findNonTerm_le (l.drop i); omega
  have hback1 : 1 ≤ back := by
    rw [hback_def]
    apply findNonTerm_pos _ (by omega)
    rw [revtake_get l i 0 h (by omega)]
    simpa using hterm
  have hbackle : back ≤ i + 1 := by
    have := findNonTerm_le ((l.take (i+1)).reverse); omega
  -- the run of term characters
  have hrun : ∀ j (hj : j < l.length), i + 1 - back ≤ j → j < i + front →
      isTermChar (l.get ⟨j, hj⟩) = true := by
    intro j hj hlo hhi
    rcases Nat.lt_or_ge j i with hji | hji
    · have hk : i - j < back := by omega
      have hall := findNonTerm_all ((l.take (i+1)).reverse) (i - j) hk (by omega)
      rw [show ((l.take (i+1)).reverse)[i-j] =
            (l.take (i+1)).reverse.get ⟨i - j, by omega⟩ from rfl,
          revtake_get l i (i - j) h (by omega)] at hall
      have : i - (i - j) = j := by omega
      simpa [List.get_eq_getElem, this] using hall
    · have hall := findNonTerm_all (l.drop i) (j - i) (by omega) (by omega)
      rw [List.getElem_drop] at hall
      have : i + (j - i) = j := by omega
      simpa [List.get_eq_getElem, this] using hall
  -- right boundary
  have hhiB : i + front = l.length ∨
      ∃ hhi : i + front < l.length, isTermChar (l.get ⟨i + front, hhi⟩) = false := by
    rcases Nat.eq_or_lt_of_le hfrontle with heq | hlt
    · left; omega
    · right
      refine ⟨by omega, ?_⟩
      have hend := findNonTerm_end (l.drop i) front hfront_def (by omega)
      rw [List.getElem_drop] at hend
      simpa [List.get_eq_getElem] using hend
  -- left boundary
  have hloB : i + 1 - back = 0 ∨
      ∃ hlo : (i + 1 - back) - 1 < l.length,
        isTermChar (l.get ⟨(i + 1 - back) - 1, hlo⟩) = false := by
    rcases Nat.eq_or_lt_of_le hbackle with heq | hlt
    · left; omega
    · right
      refine ⟨by omega, ?_⟩
      have hend := findNonTerm_end ((l.take (i+1)).reverse) back hback_def (by omega)
      rw [show ((l.take (i+1)).reverse)[back] =
            (l.take (i+1)).reverse.get ⟨back, by omega⟩ from rfl,
          revtake_get l i back h (by omega)] at hend
      have : i - back = (i + 1 - back) - 1 := by omega
      simpa [List.get_eq_getElem, this] using hend
  refine ⟨i + 1 - back, i + front, by omega, by omega, by omega, hrun, hloB, hhiB, ?_⟩
  -- probing any index of the run returns the same token
  intro j hlo hhi
  have hjl : j < l.length := by omega
  have hfj : findNonTerm (l.drop j) = (i + front) - j := by
    apply findNonTerm_eq
    · simp; omega
    · intro k hk hkc
      rw [List.getElem_drop]
      exact hrun (j + k) (by simp at hk; omega) (by omega) (by omega)
    · rcases hhiB with heq | ⟨hh, hf⟩
      · left; simp; omega
      · right
        refine ⟨by simp; omega, ?_⟩
        simp only [List.get_eq_getElem, List.getElem_drop]
        have : j + ((i + front) - j) = i + front := by omega
        rw [getElem_congr this]
        simpa [List.get_eq_getElem] using hf
  have hbj : findNonTerm ((l.take (j+1)).reverse) = j + 1 - (i + 1 - back) := by
    apply findNonTerm_eq
    · rw [List.length_reverse, List.length_take]; omega
    · intro k hk hkc
      rw [List.length_reverse, List.length_take] at hk
      rw [show ((l.take (j+1)).reverse)[k] =
            (l.take (j+1)).reverse.get ⟨k, by rw [List.length_reverse, List.length_take]; omega⟩
          from rfl,
          revtake_get l j k hjl (by omega)]
      exact hrun (j - k) (by omega) (by omega) (by omega)
    · rcases Nat.eq_zero_or_pos (i + 1 - back) with hz | hpos
      · left; rw [List.length_reverse, List.length_take]; omega
      rcases hloB with heq | ⟨hh, hf⟩
      · omega
      · right
        refine ⟨by rw [List.length_reverse, List.length_take]; omega, ?_⟩
        rw [show ((l.take (j+1)).reverse).get ⟨j + 1 - (i + 1 - back), by
              rw [List.length_reverse, List.length_take]; omega⟩ =
            (l.take (j+1)).reverse.get ⟨j + 1 - (i + 1 - back), by
              rw [List.length_reverse, List.length_take]; omega⟩ from rfl,
          revtake_get l j (j + 1 - (i + 1 - back)) hjl (by omega)]
        have : j - (j + 1 - (i + 1 - back)) = (i + 1 - back) - 1 := by omega
        simp only [List.get_eq_getElem] at hf ⊢
        rw [getElem_congr this]
        exact hf
  show (match searchNonTerm (pySuffix l (j : Int)) with
    | none => none
    | some front =>
      match searchNonTerm (pyRevFrom l (j : Int)) with
      | none => none
      | some back => some (pySlice l ((j : Int) - back + 1) ((j : Int) + front))) =
      some ((l.take (i + front)).drop (i + 1 - back))
  rw [pySuffix_natCast, pyRevFrom_natCast l j hjl]
  simp only [searchNonTerm, hfj, hbj]
  have e1 : (j : Int) - ((j + 1 - (i + 1 - back) : Nat) : Int) + 1 = ((i + 1 - back : Nat) : Int) := by
    omega
  have e2 : (j : Int) + (((i + front) - j : Nat) : Int) = ((i + front : Nat) : Int) := by
    omega
  rw [e1, e2, pySlice_natCast l (i + 1 - back) (i + front) (by omega) (by omega)]

example : get_pfxns "@prefix foo: <http://example.org/foo#> .".data =
    [("foo".data, "http://example.org/foo#".data)] := by decide

example : get_pfxns "PREFIX ex: <http://example.org/>".data =
    [("ex".data, "http://example.org/".data)] := by decide

example : get_pfxns "<root xmlns:dc=\"http://purl.org/dc/terms/\">".data =
    [("dc".data, "http://purl.org/dc/terms/".data)] := by decide

example : get_pfxns "  \"@vocab\": \"http://schema.org/\",".data =
    [([], "http://schema.org/".data)] := by decide

example : get_pfxns "foo:Bar a ".data = [] := by decide

theorem find?_map_insert [DecidableEq κ] (m : List (κ × α)) (k : κ) (v : α) (q : κ) :
    (m.map (fun p => if p.1 = k then (k, v) else p)).find? (fun p => p.1 = q) =
      if q = k then (m.find? (fun p => p.1 = k)).map (fun _ => (k, v))
      else m.find? (fun p => p.1 = q) := by
  induction m with
  | nil => simp
  | cons p ps ih =>
    by_cases hpk : p.1 = k
    · by_cases hqk : q = k
      · subst hqk
        simp [List.find?_cons, hpk]
      · simp only [List.map_cons, if_pos hpk, List.find?_cons]
        have h1 : (decide ((k, v).1 = q)) = false := by
          simp [Ne.symm hqk]
        have h2 : (decide (p.1 = q)) = false := by
          simp [hpk, Ne.symm hqk]
        rw [h1, h2]
        simpa [hqk] using ih
    · by_cases hpq : p.1 = q
      · have hqk : ¬ q = k := by
          intro h; exact hpk (hpq.trans h)
        simp [List.find?_cons, hpk, hpq, hqk]
      · simp only [List.map_cons, if_neg hpk, List.find?_cons]
        rw [show (decide (p.1 = q)) = false by simp [hpq]]
        by_cases hqk : q = k
        · subst hqk
          rw [show (decide (p.1 = q)) = false by simp [hpq]] at *
          simpa [hpk] using ih
        · simpa [hqk] using ih

theorem dictLookup_dictInsert [DecidableEq κ] (m : List (κ × α)) (k : κ) (v : α)
    (q : κ) :
    dictLookup (dictInsert m k v) q = if q = k then some v else dictLookup m q := by
  unfold dictInsert
  by_cases hany : m.any (fun p => p.1 = k)
  · rw [if_pos hany]
    unfold dictLookup
    rw [find?_map_insert]
    by_cases hqk : q = k
    · rw [if_pos hqk, if_pos hqk]
      cases hp : m.find? (fun p => p.1 = k) with
      | some p => rfl
      | none =>
        exfalso
        have hsome : (m.find? (fun p => p.1 = k)).isSome = true := by
          rw [List.find?_isSome]
          rcases List.any_eq_true.mp hany with ⟨x, hx, hpx⟩
          exact ⟨x, hx, hpx⟩
        rw [hp] at hsome
        simp at hsome
    · rw [if_neg hqk, if_neg hqk]
  · rw [if_neg hany]
    by_cases hqk : q = k
    · subst hqk
      rw [if_pos rfl]
      have hnone : m.find? (fun p => p.1 = q) = none := by
        rw [List.find?_eq_none]
        intro p hp
        simp only [List.any_eq_true] at hany
        simp only [decide_eq_true_eq]
        intro hc
        exact hany ⟨p, hp, by simp [hc]⟩
      simp [dictLookup, List.find?_append, hnone, List.find?_cons]
    · rw [if_neg hqk]
      unfold dictLookup
      rw [List.find?_append]
      cases hfind : m.find? (fun p => p.1 = q) with
      | some p => simp [hfind]
      | none => simp [hfind, List.find?_cons, Ne.symm hqk]

theorem dictLookup_foldl [DecidableEq κ] (ps : List (κ × α)) (m : List (κ × α))
    (k : κ) :
    dictLookup (ps.foldl (fun m p => dictInsert m p.1 p.2) m) k =
      match (ps.reverse.find? (fun p => p.1 = k)) with
      | some p => some p.2
      | none => dictLookup m k := by
  induction ps generalizing m with
  | nil => simp
  | cons p ps ih =>
    simp only [List.foldl_cons, List.reverse_cons, List.find?_append]
    rw [ih]
    cases hf : ps.reverse.find? (fun q => q.1 = k) with
    | some q => simp
    | none =>
      simp only [Option.none_or]
      rw [dictLookup_dictInsert]
      by_cases hk : k = p.1
      · simp [List.find?_cons, hk]
      · simp [List.find?_cons, Ne.symm hk, hk]

/-- Claim C3: `get_pfxns_map` scans only the first `MAX_LINE_SCAN = 80` lines
of the buffer; it is deterministic (re-scanning the same lines yields an
identical mapping); and the value bound to a prefix is the namespace of the
last declaration of that prefix within the scanned window (Python dict
comprehension semantics: last write wins). -/
theorem claim_C3 :
    (∀ buffer : List (List Char),
      get_pfxns_map buffer = get_pfxns_map (buffer.take MAX_LINE_SCAN)) ∧
    (∀ b1 b2 : List (List Char), b1 = b2 → get_pfxns_map b1 = get_pfxns_map b2) ∧
    (∀ (buffer : List (List Char)) (k : List Char),
      dictLookup (get_pfxns_map buffer) k =
        ((get_pfxns_pairs buffer).reverse.find? (fun p => p.1 = k)).map
          (fun p => p.2)) := by
  refine ⟨?_, ?_, ?_⟩
  · intro buffer
    unfold get_pfxns_map get_pfxns_pairs
    rw [List.take_take]
    simp
  · intro b1 b2 h
    rw [h]
  · intro buffer k
    unfold get_pfxns_map
    rw [dictLookup_foldl]
    cases hf : (get_pfxns_pairs buffer).reverse.find? (fun p => p.1 = k) with
    | some p => simp
    | none => simp [dictLookup]

/-- Witness for claim C3: idempotence on a concrete buffer, and on a buffer
declaring `a` twice the later namespace `<y>` wins. -/
theorem claim_C3_witness :
    get_pfxns_map ["@prefix a: <x> .".data] = get_pfxns_map ["@prefix a: <x> .".data] ∧
    dictLookup (get_pfxns_map ["@prefix a: <x> .".data, "@prefix a: <y> .".data])
        "a".data = some "y".data := by
  constructor
  · exact claim_C3.2.1 _ _ rfl
  · rw [claim_C3.2.2]
    decide

/-- `get_term_at` always succeeds: the `NOT_TERM_CHAR` pattern ends in `|$`,
so both searches match and the `None` branches are dead. -/
theorem get_term_at_eq (l : List Char) (i : Int) :
    get_term_at l i = some (pySlice l (i - (findNonTerm (pyRevFrom l i) : Int) + 1)
      (i + (findNonTerm (pySuffix l i) : Int))) := rfl

/-- `get_vocab_terms` can only fail with `loadFailed`. -/
theorem get_vocab_terms_ne_assert (env : CompleterEnv) (memo : Memo)
    (ns : Option (List Char)) :
    get_vocab_terms env memo ns ≠ Except.error CErr.assertFailed := by
  unfold get_vocab_terms
  rcases ns with _ | n
  · simp
  · dsimp only
    split
    · cases henv : env.load n <;> simp [henv]
    · simp

/-- Claim C1 (evaluation): with `http://example.org/foo#` unreachable,

1. a completion request on the token `foo:B` (buffer declaring the `foo`
   prefix) propagates the load error out of `get_completions` — there is no
   try/except between `GraphCache.load` and `get_completions`, the claimed
   catch-and-return-empty behaviour does not exist; and
2. at the spec scenario itself (cursor at the end of line 2, i.e. after the
   trailing space of `"foo:Bar a "`), the token under the cursor is empty, no
   vocabulary source is consulted, and the result is `[Completion('foo:')]`
   — a non-empty list, not the claimed empty list. -/
theorem claim_C1_eval :
    get_completions envUnreachable [] ["@prefix foo: <http://example.org/foo#> .".data]
        "foo:B".data 5 (some "turtle".data) = Except.error CErr.loadFailed ∧
    get_completions envUnreachable []
        ["@prefix foo: <http://example.org/foo#> .".data, "foo:Bar a ".data]
        "foo:Bar a ".data 10 (some "turtle".data) =
      Except.ok ([{ label := "foo:".data }], []) := by
  exact ⟨rfl, rfl⟩

/-- Claim C2: `get_term_at` returns the substring covering exactly the
maximal contiguous run of characters from the class
{letters, digits, `-`, `_`, `:`} containing the probed index (when the
probed character is in the class), probing any interior index of that token
returns the same token, and the three fixture probes return `"rdf:term"`,
`"here"` and `"bibo:Article"`. -/
theorem claim_C2 :
    get_term_at "some rdf:term here".data 7 = some "rdf:term".data ∧
    get_term_at "some rdf:term here".data 17 = some "here".data ∧
    get_term_at "<> a bibo:Article".data 16 = some "bibo:Article".data ∧
    ∀ (l : List Char) (i : Nat) (h : i < l.length),
      isTermChar (l.get ⟨i, h⟩) = true →
      ∃ lo hi, lo ≤ i ∧ i < hi ∧ hi ≤ l.length ∧
        (∀ j (hj : j < l.length), lo ≤ j → j < hi → isTermChar (l.get ⟨j, hj⟩) = true) ∧
        (lo = 0 ∨ ∃ hlo : lo - 1 < l.length, isTermChar (l.get ⟨lo - 1, hlo⟩) = false) ∧
        (hi = l.length ∨ ∃ hhi : hi < l.length, isTermChar (l.get ⟨hi, hhi⟩) = false) ∧
        (∀ j : Nat, lo ≤ j → j < hi →
          get_term_at l (j : Int) = some ((l.take hi).drop lo)) :=
  ⟨by decide, by decide, by decide, token_span⟩

/-- Witness for claim C2: the general token-span property instantiated on
`"a:b"` probed at index 0 (whose maximal run is the whole string). -/
theorem claim_C2_witness :
    ∃ lo hi, lo ≤ 0 ∧ 0 < hi ∧ hi ≤ "a:b".data.length ∧
      (∀ j (hj : j < "a:b".data.length), lo ≤ j → j < hi →
        isTermChar ("a:b".data.get ⟨j, hj⟩) = true) ∧
      (lo = 0 ∨ ∃ hlo : lo - 1 < "a:b".data.length,
        isTermChar ("a:b".data.get ⟨lo - 1, hlo⟩) = false) ∧
      (hi = "a:b".data.length ∨ ∃ hhi : hi < "a:b".data.length,
        isTermChar ("a:b".data.get ⟨hi, hhi⟩) = false) ∧
      (∀ j : Nat, lo ≤ j → j < hi →
        get_term_at "a:b".data (j : Int) = some (("a:b".data.take hi).drop lo)) :=
  claim_C2.2.2.2 "a:b".data 0 (by decide) (by decide)

/-- Claim C10: `get_term_at` is total (both directional searches end in `|$`
and always match, so `None` is never returned); a probed position whose
character is outside the token character class yields the empty token; and
consequently the `assert term is not None` at the start of `get_completions`
can never fire, for any buffer, line, column and language. -/
theorem claim_C10 :
    (∀ (l : List Char) (i : Int), ∃ t, get_term_at l i = some t) ∧
    (∀ (l : List Char) (i : Nat) (h : i < l.length),
      isTermChar (l.get ⟨i, h⟩) = false → get_term_at l (i : Int) = some []) ∧
    (∀ env memo buffer line col lang,
      get_completions env memo buffer line col lang ≠ Except.error CErr.assertFailed) := by
  refine ⟨fun l i => ⟨_, get_term_at_eq l i⟩, ?_, ?_⟩
  · intro l i h hnt
    rw [get_term_at_eq, pySuffix_natCast, pyRevFrom_natCast l i h]
    have hfront : findNonTerm (l.drop i) = 0 := by
      rw [List.drop_eq_getElem_cons h]
      simp only [findNonTerm]
      rw [if_neg]
      simp only [List.get_eq_getElem] at hnt
      simp [hnt]
    have hback : findNonTerm ((l.take (i+1)).reverse) = 0 := by
      have hlen : 0 < ((l.take (i+1)).reverse).length := by
        simp only [List.length_reverse, List.length_take]
        omega
      cases hrt : (l.take (i+1)).reverse with
      | nil => simp [hrt] at hlen
      | cons c cs =>
        have hc : c = l.get ⟨i, h⟩ := by
          have := revtake_get l i 0 h (by omega)
          rw [show ((l.take (i+1)).reverse).get ⟨0, by omega⟩ = c by
            simp [hrt]] at this
          simpa using this
        have hcf : isTermChar c = false := by
          rw [hc]
          simpa [List.get_eq_getElem] using hnt
        simp [findNonTerm, hcf]
    rw [hfront, hback]
    simp only [Nat.cast_zero, Int.sub_zero, Int.add_zero]
    congr 1
    simp only [pySlice]
    rw [if_neg (by omega), if_neg (by omega)]
    apply List.drop_eq_nil_of_le
    simp only [List.length_take]
    have h1 : ((i : Int) + 1).toNat = i + 1 := by omega
    have h2 : (i : Int).toNat = i := by omega
    rw [h1, h2]
    omega
  · intro env memo buffer line col lang
    unfold get_completions
    rw [get_term_at_eq]
    dsimp only
    cases hfmt : pfx_fmt_of line with
    | some fmt =>
      dsimp only
      split <;> simp
    | none =>
      dsimp only
      cases hvt : get_vocab_terms env memo
          (dictLookup (get_pfxns_map buffer)
            (pyPartition (pySlice line _ _) ':').1) with
      | error e =>
        intro hcontra
        rcases e with _ | _
        · exact get_vocab_terms_ne_assert _ _ _ hvt
        · simp at hcontra
      | ok tm =>
        dsimp only
        split <;> simp

/-- Witness for claim C10: probing the space at index 0 of `" a"` returns
the empty token. -/
theorem claim_C10_witness : get_term_at " a".data 0 = some [] :=
  claim_C10.2.1 " a".data 0 (by decide) (by decide)

theorem lexLe_total (a b : List Char) : lexLe a b = true ∨ lexLe b a = true := by
  induction a generalizing b with
  | nil => left; rfl
  | cons x xs ih =>
    cases b with
    | nil => right; rfl
    | cons y ys =>
      by_cases hxy : x = y
      · subst hxy
        simpa only [lexLe, if_pos rfl] using ih ys
      · rcases lt_trichotomy x y with h | h | h
        · left; simp [lexLe, hxy, h]
        · exact absurd h hxy
        · right; simp [lexLe, Ne.symm hxy, h]

theorem lexLe_trans (a b c : List Char) (h1 : lexLe a b = true)
    (h2 : lexLe b c = true) : lexLe a c = true := by
  induction a generalizing b c with
  | nil => rfl
  | cons x xs ih =>
    cases b with
    | nil => simp [lexLe] at h1
    | cons y ys =>
      cases c with
      | nil => simp [lexLe] at h2
      | cons z zs =>
        simp only [lexLe] at h1 h2 ⊢
        by_cases hxy : x = y <;> by_cases hyz : y = z
        · subst hxy; subst hyz
          rw [if_pos rfl] at h1 h2 ⊢
          exact ih ys zs h1 h2
        · subst hxy
          rw [if_pos rfl] at h1
          rw [if_neg hyz] at h2 ⊢
          exact h2
        · subst hyz
          rw [if_neg hxy] at h1 ⊢
          exact h1
        · rw [if_neg hxy] at h1
          rw [if_neg hyz] at h2
          have hlt : x < z := lt_trans (of_decide_eq_true h1) (of_decide_eq_true h2)
          rw [if_neg (by intro h; subst h; exact absurd hlt (lt_irrefl x))]
          exact decide_eq_true hlt

theorem pyInsert_perm (le : α → α → Bool) (a : α) (l : List α) :
    List.Perm (pyInsert le a l) (a :: l) := by
  induction l with
  | nil => exact List.Perm.refl _
  | cons b bs ih =>
    simp only [pyInsert]
    split
    · exact List.Perm.refl _
    · exact (List.Perm.cons b ih).trans (List.Perm.swap a b bs)

theorem pySort_perm (le : α → α → Bool) (l : List α) : List.Perm (pySort le l) l := by
  induction l with
  | nil => exact List.Perm.refl _
  | cons a as ih =>
    exact (pyInsert_perm le a (pySort le as)).trans (List.Perm.cons a ih)

theorem pyInsert_pairwise (le : α → α → Bool)
    (htot : ∀ x y, le x y = true ∨ le y x = true)
    (htr : ∀ x y z, le x y = true → le y z = true → le x z = true)
    (a : α) (l : List α) (h : l.Pairwise (fun x y => le x y = true)) :
    (pyInsert le a l).Pairwise (fun x y => le x y = true) := by
  induction l with
  | nil => simp [pyInsert]
  | cons b bs ih =>
    rcases List.pairwise_cons.mp h with ⟨hb, hbs⟩
    simp only [pyInsert]
    split
    · rename_i hle
      refine List.pairwise_cons.mpr ⟨?_, h⟩
      intro y hy
      rcases List.mem_cons.mp hy with rfl | hy2
      · exact hle
      · exact htr a b y hle (hb y hy2)
    · rename_i hnle
      refine List.pairwise_cons.mpr ⟨?_, ih hbs⟩
      intro y hy
      have hy3 := (pyInsert_perm le a bs).mem_iff.mp hy
      rcases List.mem_cons.mp hy3 with rfl | hy4
      · rcases htot b y with hby | hyb
        · exact hby
        · exact absurd hyb hnle
      · exact hb y hy4

theorem pySort_pairwise (le : α → α → Bool)
    (htot : ∀ x y, le x y = true ∨ le y x = true)
    (htr : ∀ x y z, le x y = true → le y z = true → le x z = true)
    (l : List α) : (pySort le l).Pairwise (fun x y => le x y = true) := by
  induction l with
  | nil => simp [pySort]
  | cons a as ih => exact pyInsert_pairwise le htot htr a (pySort le as) ih

theorem compLe_total (x y : Completion) : compLe x y = true ∨ compLe y x = true :=
  lexLe_total x.label y.label

theorem compLe_trans (x y z : Completion) (h1 : compLe x y = true)
    (h2 : compLe y z = true) : compLe x z = true :=
  lexLe_trans x.label y.label z.label h1 h2

/-- Claim C8: in term mode (no prefix-declaration keyword on the line) with a
`:` in the token under the cursor, `get_completions` returns exactly the
vocabulary-term completions whose name starts with the trailer after the `:`,
each annotated with its declared type (qname) and comment when present,
sorted by label (`compLe` compares labels; the labels, keys of one dict, are
pairwise distinct, which is also why Python's tuple sort never reaches the
optional fields); and in prefix-declaration mode or unqualified term mode
every returned `Completion` carries `detail = None` and
`documentation = None`. -/
theorem claim_C8 :
    (∀ (env : CompleterEnv) (memo : Memo) (buffer : List (List Char))
        (line : List Char) (col : Nat) (lang : Option (List Char))
        (term : List Char) termsOpt (memo2 : Memo),
      get_term_at line ((col : Int) - 1) = some term →
      term.contains ':' = true →
      pfx_fmt_of line = none →
      get_vocab_terms env memo
          (dictLookup (get_pfxns_map buffer) (pyPartition term ':').1) =
        Except.ok (termsOpt, memo2) →
      ∃ res,
        get_completions env memo buffer line col lang = Except.ok (res, memo2) ∧
        List.Perm res ((termsOpt.getD []).filterMap (fun kv =>
          if (pyPartition term ':').2.2.isPrefixOf kv.1 then
            some { label := kv.1, detail := kv.2.typeq,
                   documentation := kv.2.comment }
          else none)) ∧
        List.Pairwise (fun a b => compLe a b = true) res) ∧
    (∀ (env : CompleterEnv) (memo : Memo) (buffer : List (List Char))
        (line : List Char) (col : Nat) (lang : Option (List Char))
        (res : List Completion) (memo2 : Memo),
      get_completions env memo buffer line col lang = Except.ok (res, memo2) →
      (pfx_fmt_of line ≠ none ∨
        (∀ term : List Char, get_term_at line ((col : Int) - 1) = some term →
          term.contains ':' = false)) →
      ∀ c ∈ res, c.detail = none ∧ c.documentation = none) := by
  constructor
  · intro env memo buffer line col lang term termsOpt memo2 hterm hcolon hfmt hvt
    unfold get_completions
    rw [hterm, hfmt]
    dsimp only
    rw [hvt]
    dsimp only
    rw [if_pos hcolon]
    refine ⟨_, rfl, ?_, ?_⟩
    · exact pySort_perm compLe _
    · exact pySort_pairwise compLe compLe_total compLe_trans _
  · intro env memo buffer line col lang res memo2 heq hside
    unfold get_completions at heq
    rw [get_term_at_eq] at heq
    dsimp only at heq
    cases hfmt : pfx_fmt_of line with
    | some fmt =>
      rw [hfmt] at heq
      dsimp only at heq
      split at heq
      · rcases heq with ⟨⟩
        intro c hc
        rcases List.mem_map.mp hc with ⟨v, hv, rfl⟩
        exact ⟨rfl, rfl⟩
      · rcases heq with ⟨⟩
        intro c hc
        rcases List.mem_map.mp hc with ⟨v, hv, rfl⟩
        exact ⟨rfl, rfl⟩
    | none =>
      rw [hfmt] at heq
      dsimp only at heq
      rcases hside with hside | hside
      · exact absurd hfmt hside
      have hcf := hside _ (get_term_at_eq line ((col : Int) - 1))
      cases hvt : get_vocab_terms env memo
          (dictLookup (get_pfxns_map buffer)
            (pyPartition (pySlice line ((col : Int) - 1 -
              (findNonTerm (pyRevFrom line ((col : Int) - 1)) : Int) + 1)
              ((col : Int) - 1 +
                (findNonTerm (pySuffix line ((col : Int) - 1)) : Int))) ':').1) with
      | error e => rw [hvt] at heq; cases heq
      | ok tm =>
        rw [hvt] at heq
        dsimp only at heq
        simp only [hcf, Bool.false_eq_true, if_false] at heq
        rcases heq with ⟨⟩
        intro c hc
        rcases List.mem_map.mp hc with ⟨v, hv, rfl⟩
        exact ⟨rfl, rfl⟩

/-- Witness for claim C8: completing `foo:B` against the memoized vocabulary
returns the annotated `Bar` completion, sorted. -/
theorem claim_C8_witness :
    ∃ res, get_completions envW memoW ["@prefix foo: <http://ex#> .".data]
        "foo:B".data 5 none = Except.ok (res, memoW) ∧
      List.Perm res
        (((some [("Bar".data,
            (⟨some "rdfs:Class".data, some "A bar".data⟩ : TermDesc))] :
              Option (List (List Char × TermDesc))).getD []).filterMap (fun kv =>
          if (pyPartition "foo:B".data ':').2.2.isPrefixOf kv.1 then
            some { label := kv.1, detail := kv.2.typeq,
                   documentation := kv.2.comment }
          else none)) ∧
      List.Pairwise (fun a b => compLe a b = true) res :=
  claim_C8.1 envW memoW ["@prefix foo: <http://ex#> .".data] "foo:B".data 5 none
    "foo:B".data (some [("Bar".data, ⟨some "rdfs:Class".data, some "A bar".data⟩)])
    memoW rfl (by decide) (by decide) rfl

example : find_term_definition
    ["@prefix ex: <http://ex/> .".data, "ex:Bar a Thing .".data]
    "http://ex/".data "Bar".data = (1, 0) := by decide

example : find_term_definition ["nothing here".data, "at all".data]
    "http://ex/".data "Bar".data = (0, 0) := by decide

example : find_term_definition ["<http://ex/Bar> a T .".data]
    "http://ex/".data "Bar".data = (0, 0) := by decide

example : find_term_definition
    ["ex:Bar early".data, "@prefix ex: <http://ex/> .".data, "ex:Bar late".data]
    "http://ex/".data "Bar".data = (2, 0) := by decide

example : find_term_definition
    ["@prefix ex: <http://ex/> .".data, "ex: x".data, "ex:x y".data]
    "http://ex/".data [] = (2, 0) := by decide

example : find_term_definition
    ["@prefix a: <u> .".data, "@prefix b: <u> .".data, "b:T x".data, "a:T x".data]
    "u".data "T".data = (3, 0) := by decide

theorem pm_upto_succ (lines : List (List Char)) (k : Nat) (hk : k < lines.length) :
    pm_upto lines (k + 1) =
      if k < MAX_LINE_SCAN then scan_decls (pm_upto lines k) lines[k]
      else pm_upto lines k := by
  by_cases h80 : k < MAX_LINE_SCAN
  · rw [if_pos h80]
    unfold pm_upto
    have hmin1 : min (k + 1) MAX_LINE_SCAN = k + 1 := by omega
    have hmin2 : min k MAX_LINE_SCAN = k := by omega
    rw [hmin1, hmin2, List.take_succ]
    rw [List.getElem?_eq_getElem hk]
    simp only [Option.toList_some, List.flatMap_append, List.foldl_append]
    simp [scan_decls, List.flatMap_cons]
  · rw [if_neg h80]
    unfold pm_upto
    have : min (k + 1) MAX_LINE_SCAN = min k MAX_LINE_SCAN := by
      unfold MAX_LINE_SCAN at h80 ⊢
      omega
    rw [this]

theorem ftdLoop_spec (lines : List (List Char)) (ns lname : List Char) :
    ∀ (n k : Nat), k ≤ lines.length → lines.length - k = n →
      ftdLoop ns lname (lines.drop k) k (pm_upto lines k) =
        match (List.range' k (lines.length - k)).find? (matchesAt lines ns lname) with
        | some i => (i, 0)
        | none => (0, 0) := by
  intro n
  induction n with
  | zero =>
    intro k hk hn
    have hk2 : k = lines.length := by omega
    subst hk2
    rw [List.drop_length]
    simp [ftdLoop]
  | succ n ih =>
    intro k hk hn
    have hklt : k < lines.length := by omega
    rw [List.drop_eq_getElem_cons hklt]
    show ftdLoop ns lname (lines[k] :: lines.drop (k + 1)) k (pm_upto lines k) = _
    rw [show lines.length - k = n + 1 from hn, List.range'_succ]
    unfold ftdLoop
    dsimp only
    have hpm : (if k < MAX_LINE_SCAN then scan_decls (pm_upto lines k) lines[k]
        else pm_upto lines k) = pm_upto lines (k + 1) := by
      rw [pm_upto_succ lines k hklt]
    rw [hpm]
    have hmatch : matchesLineStart lines[k] (defterm_of (pm_upto lines (k + 1)) ns lname) =
        matchesAt lines ns lname k := by
      unfold matchesAt
      rw [List.getElem?_eq_getElem hklt]
    rw [hmatch]
    cases hm : matchesAt lines ns lname k with
    | true =>
      rw [if_pos rfl]
      rw [List.find?_cons]
      rw [hm]
    | false =>
      rw [if_neg (by simp)]
      rw [List.find?_cons, hm]
      have := ih (k + 1) (by omega) (by omega)
      rw [show lines.length - (k + 1) = n by omega] at this
      exact this

/-- Claim C9: `find_term_definition` returns `(0, 0)` when no line of the
document begins, on a word boundary, with the expected rendering of the term
at that point of the scan (`localPfx:localName` once a prefix for the
namespace has been seen within the first 80 lines, the full angle-bracket
URI form before that), and otherwise the zero-based index of the first
matching line, with column 0. -/
theorem claim_C9 (lines : List (List Char)) (ns lname : List Char) :
    find_term_definition lines ns lname =
      match (List.range lines.length).find? (matchesAt lines ns lname) with
      | some i => (i, 0)
      | none => (0, 0) := by
  have h0 : pm_upto lines 0 = [] := by
    unfold pm_upto
    simp
  have := ftdLoop_spec lines ns lname lines.length 0 (by omega) (by omega)
  rw [h0] at this
  simp only [List.drop_zero, Nat.sub_zero] at this
  rw [List.range_eq_range']
  exact this

example : pyQuote "http://example.org/foo#".data =
    "http%3A%2F%2Fexample.org%2Ffoo%23".data := by decide

example : pyQuote "héllo/~x_y.z-9".data = "h%C3%A9llo%2F~x_y.z-9".data := by decide

example : GraphCache.get_fs_path "/c" "http://ex/" = "/c/http%3A%2F%2Fex%2F.ttl" := by decide

theorem char_toNat_lt (c : Char) : c.toNat < 1114112 := by
  have h := c.valid
  unfold UInt32.isValidChar at h
  unfold Nat.isValidChar at h
  unfold Char.toNat
  omega

theorem char_toNat_inj (c d : Char) (h : c.toNat = d.toNat) : c = d :=
  Char.eq_of_val_eq (UInt32.ext h)

theorem charOfNat_toNat (b : Nat) (h : b < 128) : (Char.ofNat b).toNat = b := by
  unfold Char.ofNat
  have hv : Nat.isValidChar b := Or.inl (by omega)
  rw [dif_pos hv]
  simp [Char.toNat, Char.ofNatAux, UInt32.toNat, UInt32.ofNatCore]

theorem hexVal_hexDigitChar (n : Nat) (h : n < 16) : hexVal (hexDigitChar n) = n := by
  have hall : ∀ m, m < 16 → hexVal (hexDigitChar m) = m := by decide
  exact hall n h

theorem isSafeByte_lt (b : Nat) (h : isSafeByte b = true) : b < 128 := by
  unfold isSafeByte at h
  simp only [Bool.or_eq_true, Bool.and_eq_true, decide_eq_true_eq] at h
  omega

theorem isSafeByte_ne_percent (b : Nat) (h : isSafeByte b = true) : b ≠ 37 := by
  intro hb
  subst hb
  simp [isSafeByte] at h

theorem decodeBytes_encodeByte (b : Nat) (hb : b < 256) (rest : List Char) :
    decodeBytes (encodeByte b ++ rest) = b :: decodeBytes rest := by
  unfold encodeByte
  by_cases hs : isSafeByte b
  · rw [if_pos hs]
    have hlt := isSafeByte_lt b hs
    have hne : ¬(Char.ofNat b = '%') := by
      intro hc
      have h37 : (Char.ofNat b).toNat = 37 := by rw [hc]; rfl
      rw [charOfNat_toNat b (by omega)] at h37
      exact isSafeByte_ne_percent b hs h37
    rw [List.cons_append, List.nil_append, decodeBytes, if_neg hne,
      charOfNat_toNat b (by omega)]
  · rw [if_neg hs]
    rw [List.cons_append, List.cons_append, List.cons_append, List.nil_append,
      decodeBytes, if_pos rfl]
    simp only [List.headD_cons, List.drop_succ_cons, List.drop_zero]
    rw [hexVal_hexDigitChar (b / 16) (by omega), hexVal_hexDigitChar (b % 16) (by omega)]
    congr 1
    omega

theorem decodeBytes_flatMap (bs : List Nat) (h : ∀ b ∈ bs, b < 256) :
    decodeBytes (bs.flatMap encodeByte) = bs := by
  induction bs with
  | nil => simp [decodeBytes]
  | cons b rest ih =>
    rw [List.flatMap_cons, decodeBytes_encodeByte b (h b (by simp)) _]
    rw [ih (fun x hx => h x (by simp [hx]))]

theorem charUtf8_lt256 (n : Nat) (h : n < 1114112) : ∀ b ∈ charUtf8 n, b < 256 := by
  unfold charUtf8
  split
  · intro b hb; simp at hb; omega
  · split
    · intro b hb
      simp only [List.mem_cons, List.not_mem_nil, or_false] at hb
      rcases hb with rfl | rfl <;> omega
    · split
      · intro b hb
        simp only [List.mem_cons, List.not_mem_nil, or_false] at hb
        rcases hb with rfl | rfl | rfl <;> omega
      · intro b hb
        simp only [List.mem_cons, List.not_mem_nil, or_false] at hb
        rcases hb with rfl | rfl | rfl | rfl <;> omega

set_option maxRecDepth 4000 in
theorem decodeUtf8_charUtf8 (n : Nat) (h : n < 1114112) (rest : List Nat) :
    decodeUtf8 (charUtf8 n ++ rest) = n :: decodeUtf8 rest := by
  unfold charUtf8
  by_cases h1 : n < 128
  · rw [if_pos h1, List.cons_append, List.nil_append, decodeUtf8]
    have hl : utf8Len n - 1 = 0 := by unfold utf8Len; rw [if_pos h1]
    rw [hl, List.take_zero, List.drop_zero]
    rfl
  · rw [if_neg h1]
    by_cases h2 : n < 2048
    · rw [if_pos h2, List.cons_append, List.cons_append, List.nil_append, decodeUtf8]
      have hl : utf8Len (192 + n / 64) - 1 = 1 := by
        unfold utf8Len
        rw [if_neg (by omega), if_pos (by omega)]
      rw [hl, List.take_succ_cons, List.take_zero, List.drop_succ_cons, List.drop_zero]
      congr 1
      show (192 + n / 64 - 192) * 64 + ((128 + n % 64) - 128) = n
      omega
    · rw [if_neg h2]
      by_cases h3 : n < 65536
      · rw [if_pos h3, List.cons_append, List.cons_append, List.cons_append,
          List.nil_append, decodeUtf8]
        have hl : utf8Len (224 + n / 4096) - 1 = 2 := by
          unfold utf8Len
          rw [if_neg (by omega), if_neg (by omega), if_pos (by omega)]
        rw [hl, List.take_succ_cons, List.take_succ_cons, List.take_zero,
          List.drop_succ_cons, List.drop_succ_cons, List.drop_zero]
        congr 1
        show (224 + n / 4096 - 224) * 4096 + ((128 + n / 64 % 64) - 128) * 64 +
            ((128 + n % 64) - 128) = n
        omega
      · rw [if_neg h3, List.cons_append, List.cons_append, List.cons_append,
          List.cons_append, List.nil_append, decodeUtf8]
        have hl : utf8Len (240 + n / 262144) - 1 = 3 := by
          unfold utf8Len
          rw [if_neg (by omega), if_neg (by omega), if_neg (by omega)]
        rw [hl, List.take_succ_cons, List.take_succ_cons, List.take_succ_cons,
          List.take_zero, List.drop_succ_cons, List.drop_succ_cons,
          List.drop_succ_cons, List.drop_zero]
        congr 1
        show (240 + n / 262144 - 240) * 262144 + ((128 + n / 4096 % 64) - 128) * 4096 +
            ((128 + n / 64 % 64) - 128) * 64 + ((128 + n % 64) - 128) = n
        omega

theorem decodeUtf8_strBytes (s : List Char) :
    decodeUtf8 (strBytes s) = s.map Char.toNat := by
  induction s with
  | nil => simp [strBytes, decodeUtf8]
  | cons c cs ih =>
    unfold strBytes
    rw [List.flatMap_cons]
    rw [decodeUtf8_charUtf8 c.toNat (char_toNat_lt c) _]
    unfold strBytes at ih
    rw [ih]
    rfl

theorem pyQuote_inj (s t : List Char) (h : pyQuote s = pyQuote t) : s = t := by
  unfold pyQuote at h
  have hs : ∀ b ∈ strBytes s, b < 256 := by
    intro b hb
    unfold strBytes at hb
    rcases List.mem_flatMap.mp hb with ⟨c, _, hbc⟩
    exact charUtf8_lt256 c.toNat (char_toNat_lt c) b hbc
  have ht : ∀ b ∈ strBytes t, b < 256 := by
    intro b hb
    unfold strBytes at hb
    rcases List.mem_flatMap.mp hb with ⟨c, _, hbc⟩
    exact charUtf8_lt256 c.toNat (char_toNat_lt c) b hbc
  have hbytes : strBytes s = strBytes t := by
    rw [← decodeBytes_flatMap (strBytes s) hs, ← decodeBytes_flatMap (strBytes t) ht, h]
  have hmap : s.map Char.toNat = t.map Char.toNat := by
    rw [← decodeUtf8_strBytes, ← decodeUtf8_strBytes, hbytes]
  clear h hs ht hbytes
  induction s generalizing t with
  | nil => cases t <;> simp_all
  | cons c cs ih =>
    cases t with
    | nil => simp at hmap
    | cons d ds =>
      simp only [List.map_cons, List.cons.injEq] at hmap
      exact List.cons_eq_cons.mpr ⟨char_toNat_inj c d hmap.1, ih ds hmap.2⟩

/-- Claim C6: `GraphCache.get_fs_path` is a pure function of the source
identifier — the cache directory joined with the percent-encoding (no
characters exempt) of the identifier plus the fixed `'.ttl'` extension — and
it is injective: two distinct source identifiers never map to the same cache
path.  Injectivity is proved by exhibiting the decoder: percent-decoding
then UTF-8-decoding recovers the original code points. -/
theorem claim_C6 :
    (∀ cachedir url : String, GraphCache.get_fs_path cachedir url =
      ⟨cachedir.data ++ '/' :: (pyQuote url.data ++ ".ttl".data)⟩) ∧
    (∀ cachedir u1 u2 : String, u1 ≠ u2 →
      GraphCache.get_fs_path cachedir u1 ≠ GraphCache.get_fs_path cachedir u2) := by
  refine ⟨fun _ _ => rfl, ?_⟩
  intro cachedir u1 u2 hne heq
  apply hne
  unfold GraphCache.get_fs_path at heq
  injection heq with heq
  have h2 := List.append_cancel_left heq
  injection h2 with _ h3
  have h4 := List.append_cancel_right h3
  have h5 := pyQuote_inj _ _ h4
  exact String.ext h5

/-- Witness for claim C6: two concrete distinct URLs get distinct paths. -/
theorem claim_C6_witness :
    GraphCache.get_fs_path "/c" "http://a/" ≠ GraphCache.get_fs_path "/c" "http://b/" :=
  claim_C6.2 "/c" "http://a/" "http://b/" (by decide)

/-- Counterexample to claim C4 as stated: the local file `v.ttl` was
previously parsed at modification time `0` and its mtime is unchanged
(recorded value equals the current one), yet `load` re-parses it, because
`if not last_vocab_mtime or ...` treats the recorded `0` as falsy exactly
like the absent `None`. -/
theorem claim_C4_counterexample :
    dictLookup stMtimeZero.mtime_map "v.ttl" = some (fsMtimeZero.mtime "v.ttl") ∧
    (GraphCache.load fsMtimeZero stMtimeZero "v.ttl").2.1 = true :=
  ⟨rfl, rfl⟩

/-- Claim C4 (amended): for a local file, (a) `load` re-parses when the file
was never parsed this session, when the recorded mtime is zero (falsy), or
when the mtime is strictly newer; (b) when none of these hold and the stored
context is non-empty, `load` performs no re-parse and returns the stored
context's triples with the state unchanged; (c) advancing the mtime (to a
non-zero value, for a file parsing to a non-empty graph) forces exactly one
re-parse: the next `load` is again a no-re-parse cache hit returning the
freshly parsed triples. -/
theorem claim_C4 (fs : GCFS) (st : GCState) (url : String)
    (hfile : fs.isfile url = true) :
    (reparse_cond (dictLookup st.mtime_map url) (fs.mtime url) = true →
      (GraphCache.load fs st url).2.1 = true) ∧
    (reparse_cond (dictLookup st.mtime_map url) (fs.mtime url) = false →
      st.contexts (fs.pubId url) ≠ [] →
      GraphCache.load fs st url =
        (Except.ok (st.contexts (fs.pubId url)), false, st)) ∧
    (∀ ts, fs.mtime url ≠ 0 →
      fs.parseFile ((dictLookup vocab_source_map url).getD url) = Except.ok ts →
      ts ≠ [] →
      reparse_cond (dictLookup st.mtime_map url) (fs.mtime url) = true →
      (GraphCache.load fs st url).2.1 = true ∧
      GraphCache.load fs (GraphCache.load fs st url).2.2 url =
        (Except.ok ts, false, (GraphCache.load fs st url).2.2)) := by
  refine ⟨?_, ?_, ?_⟩
  · intro hcond
    unfold GraphCache.load
    rw [hfile]
    simp only [if_true, hcond]
    cases hp : fs.parseFile ((dictLookup vocab_source_map url).getD url) <;> simp [hp]
  · intro hcond hne
    unfold GraphCache.load
    rw [hfile]
    simp only [if_true, hcond, Bool.false_eq_true, if_false]
    unfold GraphCache.loadTail
    rw [if_pos hne]
  · intro ts hmz hp hts hcond
    have h1 : GraphCache.load fs st url =
        (Except.ok ts, true,
         { st with
            mtime_map := dictInsert st.mtime_map url (fs.mtime url),
            contexts := fun c => if c = fs.pubId url then ts else st.contexts c }) := by
      unfold GraphCache.load
      rw [hfile]
      simp only [if_true, hcond, hp]
    refine ⟨by rw [h1], ?_⟩
    rw [h1]
    unfold GraphCache.load
    rw [hfile]
    simp only [if_true]
    have hlk : dictLookup (dictInsert st.mtime_map url (fs.mtime url)) url =
        some (fs.mtime url) := by
      rw [dictLookup_dictInsert]
      rw [if_pos rfl]
    rw [hlk]
    have hcond2 : reparse_cond (some (fs.mtime url)) (fs.mtime url) = false := by
      unfold reparse_cond
      simp only [Option.getD_some, Bool.or_eq_false_iff, decide_eq_false_iff_not]
      omega
    rw [hcond2]
    simp only [Bool.false_eq_true, if_false]
    unfold GraphCache.loadTail
    rw [if_pos (by simp [hts])]
    simp

/-- Witness for claim C4: advancing the mtime of `f` from 3 to 5 re-parses
once; the immediately following `load` is a cache hit. -/
theorem claim_C4_witness :
    (GraphCache.load fsAdvanced stAdvanced "f").2.1 = true ∧
    GraphCache.load fsAdvanced (GraphCache.load fsAdvanced stAdvanced "f").2.2 "f" =
      (Except.ok [("s", "p", "o")], false,
        (GraphCache.load fsAdvanced stAdvanced "f").2.2) :=
  (claim_C4 fsAdvanced stAdvanced "f" rfl).2.2 [("s", "p", "o")]
    (by decide) rfl (by decide) rfl

/-- Claim C5: the aggregate store keeps at most one context per identifier
(structurally, `contexts` is a map identifier ↦ triples), and whenever
`load` re-parses a local source the context is replaced by exactly the
freshly parsed triples — the old content is removed first
(`remove_context`), for arbitrary prior state, so repeated loads of a
changed source never accumulate duplicates; other contexts are untouched. -/
theorem claim_C5 (fs : GCFS) (st : GCState) (url : String) (ts : List Triple)
    (hfile : fs.isfile url = true)
    (hcond : reparse_cond (dictLookup st.mtime_map url) (fs.mtime url) = true)
    (hp : fs.parseFile ((dictLookup vocab_source_map url).getD url) = Except.ok ts) :
    (GraphCache.load fs st url).2.2.contexts (fs.pubId url) = ts ∧
    (∀ c, c ≠ fs.pubId url →
      (GraphCache.load fs st url).2.2.contexts c = st.contexts c) ∧
    (GraphCache.load fs st url).1 = Except.ok ts := by
  have h1 : GraphCache.load fs st url =
      (Except.ok ts, true,
       { st with
          mtime_map := dictInsert st.mtime_map url (fs.mtime url),
          contexts := fun c => if c = fs.pubId url then ts else st.contexts c }) := by
    unfold GraphCache.load
    rw [hfile]
    simp only [if_true, hcond, hp]
  rw [h1]
  refine ⟨by simp, ?_, rfl⟩
  intro c hc
  simp [hc]

/-- Witness for claim C5: the re-parsed context of `f` holds exactly the
fresh triples, the old `("old","old","old")` content is gone, and the
unrelated context `g` is untouched. -/
theorem claim_C5_witness :
    (GraphCache.load fsAdvanced stAdvanced "f").2.2.contexts "f" = [("s", "p", "o")] ∧
    (GraphCache.load fsAdvanced stAdvanced "f").2.2.contexts "g" =
      stAdvanced.contexts "g" ∧
    (GraphCache.load fsAdvanced stAdvanced "f").1 = Except.ok [("s", "p", "o")] := by
  have h := claim_C5 fsAdvanced stAdvanced "f" [("s", "p", "o")] rfl (by decide) rfl
  exact ⟨h.1, h.2.1 "g" (by decide), h.2.2⟩

/-- Counterexample to claim C7 as stated: (i) `zzz` is absent from the table
and the fetch fails, yet `lookup` does not return nothing — the parameter
shadowing in `_fetch_ns`'s file-rewrite loop makes it return the namespace
of the unrelated last table binding (`rdf`); (ii) a table hit bound to the
empty namespace string is falsy under `ns or self._fetch_ns(pfx)` and is not
returned without fetching. -/
theorem claim_C7_counterexample :
    (dictLookup stRdfBinding.bindings "zzz" = none ∧
      (PfxState.lookup envNoNet stRdfBinding "zzz").1 =
        some "http://www.w3.org/1999/02/22-rdf-syntax-ns#") ∧
    (dictLookup stEmptyBinding.bindings "p" = some "" ∧
      (PfxState.lookup envNoNet stEmptyBinding "p").2.1 = true) :=
  ⟨⟨rfl, rfl⟩, rfl, rfl⟩

/-- Claim C7 (amended): `PrefixCache.lookup` never propagates a network or
parse error (the bare `except:` in `_fetch_ns` absorbs it — in this
embedding the fetch is total, returning `none` on failure), and a table hit
with a non-empty namespace is returned without fetching and without touching
the state (an empty-string binding is falsy under
`ns or self._fetch_ns(pfx)` and falls through to the fetch).  On a miss with
a failed fetch, however, `lookup` returns nothing only when the binding
table is empty: otherwise the parameter shadowing in `_fetch_ns`'s
file-rewrite loop makes it return the table's answer for the prefix of the
last binding — an unrelated namespace, not `None`. -/
theorem claim_C7 (env : PfxEnv) (st : PfxState) (pfx : String) :
    (∀ ns, dictLookup st.bindings pfx = some ns → ns ≠ "" →
      PfxState.lookup env st pfx = (some ns, false, st)) ∧
    (st.bindings = [] →
      env.fetchPfx (PREFIX_URI_TEMPLATE pfx) = none →
      (PfxState.lookup env st pfx).1 = none) ∧
    (∀ pl nsl, st.bindings.getLast? = some (pl, nsl) →
      dictLookup st.bindings pfx = none →
      env.fetchPfx (PREFIX_URI_TEMPLATE pfx) = none →
      (PfxState.lookup env st pfx).1 = dictLookup st.bindings pl) := by
  refine ⟨?_, ?_, ?_⟩
  · intro ns hns hne
    unfold PfxState.lookup
    rw [hns]
    simp [hne]
  · intro hempty hfetch
    have hmiss : dictLookup st.bindings pfx = none := by
      rw [hempty]
      rfl
    have hlast : st.bindings.getLast? = none := by
      rw [hempty]
      rfl
    unfold PfxState.lookup
    rw [hmiss]
    dsimp only
    unfold PfxState.fetch_ns
    rw [hfetch]
    dsimp only
    rw [hlast]
    exact hmiss
  · intro pl nsl hlast hmiss hfetch
    unfold PfxState.lookup
    rw [hmiss]
    dsimp only
    unfold PfxState.fetch_ns
    rw [hfetch]
    dsimp only
    rw [hlast]

/-- Witness for claim C7: a populated non-empty binding is returned without
fetching; a miss on an empty table with the network down yields `none`; a
miss on the one-binding `rdf` table with the network down yields the table's
answer for `rdf` (the shadowed last prefix), not `none`. -/
theorem claim_C7_witness :
    PfxState.lookup envNoNet stRdfBinding "rdf" =
      (some "http://www.w3.org/1999/02/22-rdf-syntax-ns#", false, stRdfBinding) ∧
    (PfxState.lookup envNoNet ⟨[], []⟩ "zzz").1 = none ∧
    (PfxState.lookup envNoNet stRdfBinding "zzz").1 =
      dictLookup stRdfBinding.bindings "rdf" := by
  refine ⟨?_, ?_, ?_⟩
  · exact (claim_C7 envNoNet stRdfBinding "rdf").1 _ rfl (by decide)
  · exact (claim_C7 envNoNet ⟨[], []⟩ "zzz").2.1 rfl rfl
  · exact (claim_C7 envNoNet stRdfBinding "zzz").2.2 "rdf"
      "http://www.w3.org/1999/02/22-rdf-syntax-ns#" rfl rfl rfl
